import Mathlib

/-!
Verification development for the agent-builder content ingestion pipeline.

The definitions below are a shallow embedding of the pipeline code:

- the Chunker (DocumentConverter._split_text) and the chunk identifier
  derivation (DocumentConverter._convert_single_document), over texts
  modeled as lists of characters (a Python string is a sequence of code
  points);
- the Embedding Batcher (ProductImporter._generate_all_embeddings and
  _generate_embeddings_batch), with the embedding service modeled by a
  total embedding function plus a per-call failure predicate;
- the Catalog Normalizer for the Shopify grouped-export and generic modes
  (ProductImporter._build_shopify_products_from_csv and
  _build_shopify_products_generic); record structures keep only the fields
  the verified claims mention;
- the transactional storage steps (ProductImporter.import_products running
  _import_shopify, DocumentConverter._store_document_embeddings, and
  DocumentConverter.convert_documents), with a table modeled as a list of
  rows and a transaction modeled as building a tentative row list that is
  applied on commit and discarded on rollback; an injected failure index
  models a raised insert error.
-/

namespace AgentBuilder

/-- Characters of a text: the shallow embedding of a Python string, which is
a sequence of code points. -/
abbrev Txt := List Char

/-- Whitespace test matching the character class removed by Python str.strip
with no arguments. -/
def isWS (c : Char) : Bool :=
  c = ' ' || c = '\t' || c = '\n' || c = '\r' || c.toNat = 11 || c.toNat = 12

/-- Remove leading whitespace. -/
def stripL (s : Txt) : Txt := s.dropWhile isWS

/-- Remove trailing whitespace. -/
def stripR (s : Txt) : Txt := (s.reverse.dropWhile isWS).reverse

/-- Python str.strip with no arguments: remove whitespace from both ends. -/
def strip (s : Txt) : Txt := stripR (stripL s)

/-- Prepend a character to the first piece of a split result. -/
def consHead (c : Char) : List Txt → List Txt
  | [] => [[c]]
  | h :: t => (c :: h) :: t

/-- Python s.split(d) for the two-character delimiter d1 d2: non-overlapping
left-to-right splitting that keeps empty pieces. -/
def splitOnD (d1 d2 : Char) : Txt → List Txt
  | [] => [[]]
  | [c] => [[c]]
  | c1 :: c2 :: rest =>
    if c1 = d1 && c2 = d2 then [] :: splitOnD d1 d2 rest
    else consHead c1 (splitOnD d1 d2 (c2 :: rest))

/-- Inner sentence loop of DocumentConverter._split_text: greedily accumulate
sentence pieces, flushing the stripped running buffer as a segment when the
next piece would overflow the maximum size. -/
def sentLoop (m : Nat) : List Txt → List Txt × Txt → List Txt × Txt
  | [], st => st
  | s :: rest, (segs, cur) =>
    if cur.length + s.length + 2 ≤ m then
      sentLoop m rest (segs, cur ++ s ++ ['.', ' '])
    else
      sentLoop m rest ((if cur = [] then segs else segs ++ [strip cur]), s ++ ['.', ' '])

/-- Outer paragraph loop of DocumentConverter._split_text: greedily accumulate
paragraphs; a paragraph longer than the maximum size is split on sentence
boundaries by the inner loop. -/
def paraLoop (m : Nat) : List Txt → List Txt × Txt → List Txt × Txt
  | [], st => st
  | p :: rest, (segs, cur) =>
    if cur.length + p.length + 2 ≤ m then
      paraLoop m rest (segs, cur ++ p ++ ['\n', '\n'])
    else
      paraLoop m rest
        (if m < p.length then
          sentLoop m (splitOnD '.' ' ' p) ((if cur = [] then segs else segs ++ [strip cur]), [])
        else ((if cur = [] then segs else segs ++ [strip cur]), p ++ ['\n', '\n']))

/-- Flush the final running buffer after the paragraph loop. -/
def flushFinal (st : List Txt × Txt) : List Txt :=
  if st.2 = [] then st.1 else st.1 ++ [strip st.2]

/-- First pass of DocumentConverter._split_text: the list of segments built by
the paragraph and sentence loops. -/
def firstPass (m : Nat) (text : Txt) : List Txt :=
  flushFinal (paraLoop m (splitOnD '\n' '\n' text) ([], []))

/-- Index of the first space character, if any; Python str.find for one space. -/
def firstSpaceIdx : Txt → Option Nat
  | [] => none
  | c :: cs => if c = ' ' then some 0 else (firstSpaceIdx cs).map (· + 1)

/-- Drop up to and including the first space exactly when that space occurs at
a positive index; a leading-space or space-free fragment is kept unchanged. -/
def overlapTrim (ot : Txt) : Txt :=
  match firstSpaceIdx ot with
  | some i => if 0 < i then ot.drop (i + 1) else ot
  | none => ot

/-- The trailing n characters of a text, the embedding of the slice s[-n:]
guarded by the length test in _split_text. -/
def tailTake (n : Nat) (s : Txt) : Txt := s.drop (s.length - n)

/-- The overlap fragment taken from the end of the previous segment: its
trailing ov characters, trimmed forward to the next word boundary by
overlapTrim. -/
def overlapFrag (ov : Nat) (prev : Txt) : Txt :=
  overlapTrim (tailTake ov prev)

/-- Truncate to at most m characters, the embedding of the slice chunk[:m]
applied only when the chunk is longer than m. -/
def capTo (m : Nat) (c : Txt) : Txt := if m < c.length then c.take m else c

/-- Second pass step of DocumentConverter._split_text: prepend the overlap
fragment of the previous segment plus one space, re-truncate to the maximum
size when that pushed the chunk over, and strip. -/
def injectOverlap (m ov : Nat) (prev cur : Txt) : Txt :=
  strip (capTo m (overlapFrag ov prev ++ ' ' :: cur))

/-- Second pass of DocumentConverter._split_text: the first segment is kept
as is, every later segment receives the overlap fragment of its predecessor. -/
def addOverlap (m ov : Nat) (segs : List Txt) : List Txt :=
  match segs with
  | [] => []
  | s0 :: rest => s0 :: List.zipWith (injectOverlap m ov) (s0 :: rest) rest

/-- DocumentConverter._split_text: return the whole text when it already fits,
otherwise the first-pass segments, with overlap injected when the overlap is
positive and there are at least two segments. -/
def splitText (text : Txt) (m ov : Nat) : List Txt :=
  if text.length ≤ m then [text]
  else
    if ov = 0 ∨ (firstPass m text).length ≤ 1 then firstPass m text
    else addOverlap m ov (firstPass m text)

/-- Accumulator-based word scanner; acc holds the current word reversed. -/
def wordsAux : Txt → Txt → List Txt
  | [], acc => if acc = [] then [] else [acc.reverse]
  | c :: cs, acc =>
    if isWS c then (if acc = [] then wordsAux cs [] else acc.reverse :: wordsAux cs [])
    else wordsAux cs (c :: acc)

/-- The words of a text: maximal runs of non-whitespace characters, in order,
the embedding of Python str.split with no arguments. -/
def words (s : Txt) : List Txt := wordsAux s []

/-- Decimal digit character for a value below ten. -/
def digitChar : Nat → Char
  | 0 => '0'
  | 1 => '1'
  | 2 => '2'
  | 3 => '3'
  | 4 => '4'
  | 5 => '5'
  | 6 => '6'
  | 7 => '7'
  | 8 => '8'
  | _ => '9'

/-- Value of a decimal digit character. -/
def digitVal (c : Char) : Nat :=
  if c = '0' then 0 else if c = '1' then 1 else if c = '2' then 2
  else if c = '3' then 3 else if c = '4' then 4 else if c = '5' then 5
  else if c = '6' then 6 else if c = '7' then 7 else if c = '8' then 8 else 9

/-- Fuel-driven digit emitter for natDec. -/
def natDecAux : Nat → Nat → Txt → Txt
  | _, 0, acc => acc
  | n, fuel + 1, acc =>
    if n < 10 then digitChar n :: acc
    else natDecAux (n / 10) fuel (digitChar (n % 10) :: acc)

/-- Decimal digits of a natural number, the embedding of Python str on a
nonnegative integer. -/
def natDec (n : Nat) : Txt := natDecAux n (n + 1) []

/-- Character class kept by the identifier sanitizer: letters, digits, hyphen
and underscore. -/
def isAllowedChar (c : Char) : Bool :=
  ('a' ≤ c && c ≤ 'z') || ('A' ≤ c && c ≤ 'Z') || ('0' ≤ c && c ≤ '9') || c = '-' || c = '_'

/-- Replace a disallowed character by a hyphen. -/
def sanitizeChar (c : Char) : Char := if isAllowedChar c then c else '-'

/-- Collapse every run of consecutive hyphens to a single hyphen. -/
def collapseDash : Txt → Txt
  | [] => []
  | [c] => [c]
  | c1 :: c2 :: rest =>
    if c1 = '-' && c2 = '-' then collapseDash (c2 :: rest)
    else c1 :: collapseDash (c2 :: rest)

/-- Hyphen test used by the identifier sanitizer. -/
def isDash (c : Char) : Bool := c = '-'

/-- Python s.strip with a hyphen argument: remove hyphens from both ends. -/
def stripDash (s : Txt) : Txt :=
  ((s.dropWhile isDash).reverse.dropWhile isDash).reverse

/-- Index of the last dot character, if any. -/
def lastDotIdx : Txt → Option Nat
  | [] => none
  | c :: cs =>
    match lastDotIdx cs with
    | some i => some (i + 1)
    | none => if c = '.' then some 0 else none

/-- Base name without extension, the embedding of os.path.splitext applied to
a bare filename: split at the last dot unless every character before it is a
dot. -/
def splitextBase (f : Txt) : Txt :=
  match lastDotIdx f with
  | none => f
  | some i => if (f.take i).all (· = '.') then f else f.take i

/-- Chunk identifier derivation of DocumentConverter._convert_single_document:
base name plus underscore plus chunk index, every disallowed character
replaced by a hyphen, hyphen runs collapsed, edge hyphens stripped, with a
fallback identifier when the result is empty. -/
def chunkId (filename : Txt) (i : Nat) : Txt :=
  if stripDash (collapseDash ((splitextBase filename ++ '_' :: natDec i).map sanitizeChar)) = []
  then 'd' :: 'o' :: 'c' :: '-' :: natDec i
  else stripDash (collapseDash ((splitextBase filename ++ '_' :: natDec i).map sanitizeChar))

/-- Fuel-driven splitting of a list into consecutive batches of 25, the
embedding of iterating texts[i:i+25] for i in steps of 25. -/
def chunksOf25Aux {α : Type} : Nat → List α → List (List α)
  | 0, _ => []
  | _, [] => []
  | fuel + 1, l => l.take 25 :: chunksOf25Aux fuel (l.drop 25)

/-- Split a list into consecutive batches of 25. -/
def chunksOf25 {α : Type} (l : List α) : List (List α) := chunksOf25Aux l.length l

/-- Truncation of one input text to the 20000 character model limit. -/
def truncate20000 (t : Txt) : Txt := t.take 20000

/-- One call of ProductImporter._generate_embeddings_batch: the service call
either raises as a whole, making every item of the batch none, or returns one
vector per truncated input text. The embedding service is modeled by the
total function f on truncated texts and the per-call failure predicate
fails on the truncated batch. -/
def generateEmbeddingsBatch (f : Txt → List Int) (fails : List Txt → Bool)
    (texts : List Txt) : List (Option (List Int)) :=
  if fails (texts.map truncate20000) then List.replicate texts.length none
  else texts.map (fun t => some (f (truncate20000 t)))

/-- ProductImporter._generate_all_embeddings: issue sub-batches of 25 in
order and concatenate the per-batch results. -/
def generateAllEmbeddings (f : Txt → List Int) (fails : List Txt → Bool)
    (texts : List Txt) : List (Option (List Int)) :=
  (chunksOf25 texts).flatMap (generateEmbeddingsBatch f fails)

/-- A parsed tabular row: the ordered list of column name and value pairs.
Values are character lists, as produced by CSV parsing. -/
abbrev Row := List (Txt × Txt)

/-- Normalize a column key the way ProductImporter._get_col does: lowercase,
then strip. -/
def normKey (k : Txt) : Txt := strip (k.map Char.toLower)

/-- Value of the last row entry whose normalized key matches; the dict
comprehension in _get_col lets a later duplicate column overwrite an earlier
one, and a missing key yields the empty string. -/
def lookupNorm (row : Row) (k : Txt) : Txt :=
  row.foldl (fun acc p => if normKey p.1 = k then p.2 else acc) []

/-- ProductImporter._get_col: return the first stripped, non-empty value among
the candidate column names, searched case-insensitively. -/
def getCol (row : Row) : List Txt → Txt
  | [] => []
  | k :: rest =>
    let v := strip (lookupNorm row (normKey k))
    if v ≠ [] then v else getCol row rest

/-- Append a row to its handle group, creating the group at the end on first
occurrence; groups keep dict insertion order. -/
def addToGroup : List (Txt × List Row) → Txt → Row → List (Txt × List Row)
  | [], h, r => [(h, [r])]
  | (k, rs) :: t, h, r =>
    if k = h then (k, rs ++ [r]) :: t else (k, rs) :: addToGroup t h r

/-- Group rows by handle in first-occurrence order, skipping rows without a
handle, as in _build_shopify_products_from_csv. -/
def groupByHandle (rows : List Row) : List (Txt × List Row) :=
  rows.foldl (fun acc row =>
    let h := getCol row ["Handle".toList]
    if h = [] then acc else addToGroup acc h row) []

/-- Base identifier for synthetic product ids of CSV-imported products. -/
def BASE_PRODUCT_ID : Nat := 9900000000001

/-- Base identifier for synthetic variant ids of CSV-imported products. -/
def BASE_VARIANT_ID : Nat := 9900000100001

/-- A canonical variant; only the fields the verified claims mention are
modeled. -/
structure SVariant where
  vid : Nat
  price : Txt
  deriving DecidableEq, Repr

/-- A canonical product; only the fields the verified claims mention are
modeled. -/
structure SProduct where
  pid : Nat
  title : Txt
  variants : List SVariant
  deriving DecidableEq, Repr

/-- Variant loop of _build_shopify_products_from_csv: every group row with a
non-empty Variant Price becomes one variant; the within-product variant index
counts only such rows. -/
def buildVariantsGo (pIdx : Nat) : List Row → Nat → List SVariant
  | [], _ => []
  | r :: rest, vIdx =>
    if getCol r ["Variant Price".toList] = [] then buildVariantsGo pIdx rest vIdx
    else { vid := BASE_VARIANT_ID + pIdx * 100 + vIdx,
           price := getCol r ["Variant Price".toList] } ::
      buildVariantsGo pIdx rest (vIdx + 1)

/-- Build one grouped-mode product from its handle group. -/
def mkGroupedProduct (idx : Nat) (g : Txt × List Row) : SProduct :=
  { pid := BASE_PRODUCT_ID + idx
    title := getCol (g.2.headD []) ["Title".toList]
    variants := buildVariantsGo idx g.2 0 }

/-- ProductImporter._build_shopify_products_from_csv, restricted to the fields
the claims mention: group rows by handle, then build one product per group,
indexed by group position. -/
def buildShopifyProductsFromCsv (rows : List Row) : List SProduct :=
  (groupByHandle rows).enum.map (fun p => mkGroupedProduct p.1 p.2)

/-- Candidate title columns of the generic one-row-per-product mode. -/
def titleKeys : List Txt :=
  ["title".toList, "name".toList, "product_name".toList, "product_title".toList]

/-- Build one generic-mode product from its row: exactly one synthesized
default variant. -/
def mkGenericProduct (idx : Nat) (row : Row) : SProduct :=
  { pid := BASE_PRODUCT_ID + idx
    title := getCol row titleKeys
    variants :=
      [{ vid := BASE_VARIANT_ID + idx * 100
         price :=
           if getCol row ["price".toList, "variant_price".toList, "amount".toList] = []
           then "0".toList
           else getCol row ["price".toList, "variant_price".toList, "amount".toList] }] }

/-- ProductImporter._build_shopify_products_generic, restricted to the fields
the claims mention: one product per row with a non-empty title, indexed by
row position. -/
def buildShopifyProductsGeneric (rows : List Row) : List SProduct :=
  rows.enum.filterMap (fun p =>
    if getCol p.2 titleKeys = [] then none else some (mkGenericProduct p.1 p.2))

/-- Run a sequence of inserts starting at index i; the insert at index failAt
raises. On failure the error value carries the number of inserts that
succeeded before the exception. -/
def insertSeqGo {ρ : Type} (failAt : Option Nat) (i : Nat) : List ρ → Except Nat (List ρ)
  | [] => .ok []
  | r :: rest =>
    if failAt = some i then .error i
    else
      match insertSeqGo failAt (i + 1) rest with
      | .ok rs => .ok (r :: rs)
      | .error n => .error n

/-- Run a sequence of inserts with an optional injected failure index. -/
def insertSeq {ρ : Type} (failAt : Option Nat) (rows : List ρ) : Except Nat (List ρ) :=
  insertSeqGo failAt 0 rows

/-- A row of a platform products table; only the columns the claims inspect
are modeled, and the embedding column is optional exactly as in the two
insert statements of _import_shopify. -/
structure PRow where
  merchant : String
  product : SProduct
  emb : Option (List Int)
  deriving DecidableEq, Repr

/-- Build one products table row. -/
def mkPRow (merchant : String) (p : SProduct) (e : Option (List Int)) : PRow :=
  { merchant := merchant, product := p, emb := e }

/-- Transaction skeleton of ProductImporter.import_products running
_import_shopify: inside one transaction delete the merchant rows, insert one
row per product paired with its optional embedding, and commit; on any raised
error roll the whole transaction back and re-raise. storeFails injects a
failure of _ensure_store_entry; failAt injects a raised error at the given
insert index. -/
def importProductsModel (merchant : String) (storeFails : Bool) (failAt : Option Nat)
    (products : List SProduct) (embs : List (Option (List Int)))
    (db : List PRow) : Except Unit Nat × List PRow :=
  if storeFails then (.error (), db)
  else
    let kept := db.filter (fun r => r.merchant ≠ merchant)
    let newRows := List.zipWith (mkPRow merchant) products embs
    match insertSeq failAt newRows with
    | .ok rs => (.ok rs.length, kept ++ rs)
    | .error _ => (.error (), db)

/-- Chunk data extracted from one converted document; base64 encoding and
decoding of the content round-trips and is omitted. -/
structure ChunkData where
  content : Txt
  title : String
  source : String
  chunkIndex : Nat
  totalChunks : Nat
  deriving DecidableEq, Repr

/-- A row of the document_chunks table; the code only ever inserts rows whose
embedding is present, so the embedding column is not optional here. -/
structure CRow where
  merchant : String
  chunk : ChunkData
  emb : List Int
  deriving DecidableEq, Repr

/-- Build one document_chunks row. -/
def mkCRow (merchant : String) (c : ChunkData) (e : List Int) : CRow :=
  { merchant := merchant, chunk := c, emb := e }

/-- Transaction behavior of DocumentConverter._store_document_embeddings on
already-extracted chunk data: delete the merchant rows; commit immediately
when there is no chunk data; otherwise insert one row per chunk whose
embedding is present, skipping chunks with an absent embedding, and commit;
when an insert raises, roll the transaction back and return the pre-failure
insert count normally instead of re-raising. -/
def storeDocEmbeddingsModel (merchant : String) (failAt : Option Nat)
    (chunkData : List ChunkData) (embs : List (Option (List Int)))
    (db : List CRow) : Except Unit Nat × List CRow :=
  let kept := db.filter (fun r => r.merchant ≠ merchant)
  if chunkData = [] then (.ok 0, kept)
  else
    let toInsert := (chunkData.zip embs).filterMap (fun p => p.2.map (mkCRow merchant p.1))
    match insertSeq failAt toInsert with
    | .ok rs => (.ok rs.length, kept ++ rs)
    | .error n => (.ok n, db)

/-- Outcome of resolving and converting one source path: the file is missing
from the blob store, its extraction raises, or it converts to chunk data. -/
inductive DocSrc where
  | missing
  | extractFail
  | extracted (docs : List ChunkData)
  deriving DecidableEq, Repr

/-- Summary returned by convert_documents; only the fields the claims mention
are modeled, and skippedFiles holds the raw skip list. -/
structure ConvResult where
  ndjsonPath : Option String
  documentCount : Nat
  chunksStored : Option Nat
  skippedFiles : List String
  deriving DecidableEq, Repr

/-- The path loop of convert_documents: accumulate converted chunk data in
path order and record missing or failing paths as skipped. -/
def gatherDocs (env : String → DocSrc) : List String → List ChunkData × List String
  | [] => ([], [])
  | p :: rest =>
    match env p with
    | .missing => ((gatherDocs env rest).1, p :: (gatherDocs env rest).2)
    | .extractFail => ((gatherDocs env rest).1, p :: (gatherDocs env rest).2)
    | .extracted docs => (docs ++ (gatherDocs env rest).1, (gatherDocs env rest).2)

/-- Orchestration of DocumentConverter.convert_documents: gather per-path
conversion results, return early with no upload and no database access when
nothing converted, otherwise upload one NDJSON artifact and store chunk
embeddings. The middle component of the result lists the uploaded artifact
paths. -/
def convertDocumentsModel (env : String → DocSrc) (embs : List (Option (List Int)))
    (failAt : Option Nat) (merchant : String) (paths : List String)
    (db : List CRow) : ConvResult × List String × List CRow :=
  let g := gatherDocs env paths
  if g.1 = [] then
    ({ ndjsonPath := none, documentCount := 0, chunksStored := none,
       skippedFiles := g.2 }, [], db)
  else
    let path := "merchants/" ++ merchant ++ "/training_files/documents.ndjson"
    let chunkData := g.1.filter (fun d => strip d.content ≠ [])
    let r := storeDocEmbeddingsModel merchant failAt chunkData embs db
    ({ ndjsonPath := some path, documentCount := g.1.length,
       chunksStored := some (match r.1 with | .ok n => n | .error _ => 0),
       skippedFiles := g.2 }, [path], r.2)

/-- Claim C4 as stated: some removal of a per-chunk cut point (keeping the
first chunk whole, dropping an injected overlap head from each later chunk)
makes the concatenated chunks carry exactly the words of the input, in
order. -/
def deoverlapPreservesWords (text : Txt) (m ov : Nat) : Prop :=
  ∃ ks : List Nat,
    ks.length = (splitText text m ov).length ∧
    ks.headD 0 = 0 ∧
    (List.zipWith (fun k c => List.drop k c) ks (splitText text m ov)).flatMap words
      = words text

/-- Claim C5 as stated: every chunk fits in the maximum size, except that an
atomic sentence longer than the maximum size is emitted as its own chunk
unmodified. -/
def chunkSizeClaim (text : Txt) (m ov : Nat) : Prop :=
  ∀ c ∈ splitText text m ov,
    c.length ≤ m ∨
      (m < c.length ∧ ∃ p ∈ splitOnD '\n' '\n' text, ∃ s ∈ splitOnD '.' ' ' p, c = s)

/-- Claim C6 as stated: each later chunk starts with a non-empty fragment
drawn from the trailing ov characters of the previous returned chunk. -/
def overlapClaim (text : Txt) (m ov : Nat) : Prop :=
  ∀ i, 0 < i → i < (splitText text m ov).length →
    ∃ k ∈ List.range (tailTake ov ((splitText text m ov).getD (i - 1) [])).length,
      (tailTake ov ((splitText text m ov).getD (i - 1) [])).drop k
        <+: (splitText text m ov).getD i []

/-- Claim C1 as stated for document chunks: a storage failure during the
insert phase propagates to the caller as an error. -/
def docStorageFailurePropagates : Prop :=
  ∀ (merchant : String) (failAt : Option Nat) (chunkData : List ChunkData)
    (embs : List (Option (List Int))) (db : List CRow),
    (∃ k, failAt = some k ∧
      k < ((chunkData.zip embs).filterMap (fun p => p.2.map (mkCRow merchant p.1))).length) →
    ∃ e, (storeDocEmbeddingsModel merchant failAt chunkData embs db).1 = .error e

/-- Claim C2 as stated for document chunks: a chunk whose embedding is absent
still has its content row stored. -/
def absentEmbeddingStillStored : Prop :=
  ∀ (merchant : String) (chunkData : List ChunkData)
    (embs : List (Option (List Int))) (db : List CRow) (i : Nat),
    i < chunkData.length → embs.getD i none = none →
    ∃ r ∈ (storeDocEmbeddingsModel merchant none chunkData embs db).2,
      r.merchant = merchant ∧ r.chunk = chunkData.getD i ⟨[], "", "", 0, 0⟩

/-- Claim C3 as stated for the grouped-export mode: every normalized product
has at least one variant. -/
def groupedProductsHaveVariants : Prop :=
  ∀ rows : List Row, ∀ p ∈ buildShopifyProductsFromCsv rows, 1 ≤ p.variants.length

/-- Claim C8 as stated across filenames: chunk identifiers derived from
distinct filenames never collide. -/
def chunkIdsUniqueAcrossFiles : Prop :=
  ∀ f g : Txt, ∀ i j : Nat, f ≠ g → chunkId f i ≠ chunkId g j

/-- Claim C9 as stated in its final clause: when only the middle text of a
three-text input makes the service call fail, the batcher returns none at
that position while the surrounding positions succeed. -/
def perItemFailureClaim : Prop :=
  ∀ (f : Txt → List Int) (t1 t2 t3 : Txt),
    generateAllEmbeddings f (fun b => (truncate20000 t2) ∈ b) [t1, t2, t3]
      = [some (f (truncate20000 t1)), none, some (f (truncate20000 t3))]

/-- Concrete chunk data used by witnesses and counterexamples. -/
def exChunk : ChunkData :=
  { content := "hello".toList, title := "t", source := "s", chunkIndex := 0, totalChunks := 1 }

/-- Concrete document chunk row used by witnesses and counterexamples. -/
def exCRow : CRow := { merchant := "m", chunk := exChunk, emb := [2] }

/-- Concrete product used by witnesses and counterexamples. -/
def exP : SProduct := { pid := 7, title := "x".toList, variants := [] }

/-- Concrete product row used by witnesses and counterexamples. -/
def exPRow : PRow := { merchant := "m", product := exP, emb := none }

/-- Concrete one-group row list used by witnesses and counterexamples. -/
def exRows : List Row := [[("Handle".toList, "h".toList), ("Title".toList, "T".toList)]]

/-- The buffer is empty or ends with a whitespace character. -/
def endsWS (s : Txt) : Prop := s = [] ∨ ∃ t c, s = t ++ [c] ∧ isWS c = true

/-- Join pieces with the two-character delimiter, the inverse of splitOnD. -/
def joinD (d1 d2 : Char) : List Txt → Txt
  | [] => []
  | [x] => x
  | x :: y :: rest => x ++ d1 :: d2 :: joinD d1 d2 (y :: rest)

/-- An over-long chunk produced by the sentence splitter: a stripped atomic
sentence with its appended period, coming from an over-long paragraph. -/
def overSent (paras : List Txt) (m : Nat) (c : Txt) : Prop :=
  m < c.length ∧
    ∃ p ∈ paras, m < p.length ∧ ∃ s ∈ splitOnD '.' ' ' p, c = strip (s ++ ['.', ' '])

/-- Every emitted segment either fits in the maximum size or is an over-long
sentence chunk. -/
def chunkOK (paras : List Txt) (m : Nat) (c : Txt) : Prop :=
  c.length ≤ m ∨ overSent paras m c

/-- Invariant of the running buffer across the two loops of the first pass. -/
def curOK (paras : List Txt) (m : Nat) (cur : Txt) : Prop :=
  cur = [] ∨ cur.length ≤ m ∨
    (∃ p ∈ paras, m < p.length ∧ ∃ s ∈ splitOnD '.' ' ' p, cur = s ++ ['.', ' ']) ∨
    (∃ p ∈ paras, p.length ≤ m ∧ cur = p ++ ['\n', '\n'])

theorem length_dropWhile_le (p : Char → Bool) (l : List Char) :
    (l.dropWhile p).length ≤ l.length := by
  induction l with
  | nil => simp [List.dropWhile]
  | cons c cs ih =>
    rw [List.dropWhile_cons]
    by_cases h : p c = true
    · rw [if_pos h]
      exact le_trans ih (by simp)
    · rw [if_neg h]

theorem stripL_length_le (s : Txt) : (stripL s).length ≤ s.length :=
  length_dropWhile_le _ _

theorem stripR_length_le (s : Txt) : (stripR s).length ≤ s.length := by
  simp only [stripR, List.length_reverse]
  calc (s.reverse.dropWhile isWS).length ≤ s.reverse.length := length_dropWhile_le _ _
    _ = s.length := List.length_reverse s

theorem strip_length_le (s : Txt) : (strip s).length ≤ s.length :=
  le_trans (stripR_length_le _) (stripL_length_le _)

theorem wordsAux_infix (s : Txt) : ∀ (acc w : Txt),
    w ∈ wordsAux s acc → w <:+: (acc.reverse ++ s) := by
  induction s with
  | nil =>
    intro acc w hw
    simp only [wordsAux] at hw
    by_cases h : acc = []
    · simp [h] at hw
    · rw [if_neg h] at hw
      simp only [List.mem_singleton] at hw
      subst hw
      simp
  | cons c cs ih =>
    intro acc w hw
    simp only [wordsAux] at hw
    have hsuf : cs <:+: (acc.reverse ++ c :: cs) :=
      ((cs.suffix_cons c).trans (List.suffix_append _ _)).isInfix
    by_cases hws : isWS c = true
    · rw [if_pos hws] at hw
      by_cases h : acc = []
      · rw [if_pos h] at hw
        have := ih [] w hw
        simp only [List.reverse_nil, List.nil_append] at this
        exact this.trans hsuf
      · rw [if_neg h] at hw
        rcases List.mem_cons.mp hw with hw | hw
        · subst hw
          exact (List.prefix_append _ _).isInfix
        · have := ih [] w hw
          simp only [List.reverse_nil, List.nil_append] at this
          exact this.trans hsuf
    · rw [if_neg hws] at hw
      have := ih (c :: acc) w hw
      simpa [List.append_assoc] using this

theorem words_infix (s w : Txt) (hw : w ∈ words s) : w <:+: s := by
  have := wordsAux_infix s [] w hw
  simpa using this

theorem wordsAux_append_ws (c : Char) (hc : isWS c = true) (b : Txt) : ∀ (a acc : Txt),
    wordsAux (a ++ c :: b) acc = wordsAux a acc ++ wordsAux b [] := by
  intro a
  induction a with
  | nil =>
    intro acc
    simp only [List.nil_append, wordsAux, hc, if_pos]
    by_cases h : acc = []
    · simp [h]
    · simp [h]
  | cons x xs ih =>
    intro acc
    simp only [List.cons_append, wordsAux, List.append_eq]
    by_cases hx : isWS x = true
    · rw [if_pos hx, if_pos hx]
      by_cases h : acc = []
      · rw [if_pos h, if_pos h, ih]
      · rw [if_neg h, if_neg h, ih, List.cons_append]
    · rw [if_neg hx, if_neg hx, ih]

theorem words_append_ws (a : Txt) (c : Char) (b : Txt) (hc : isWS c = true) :
    words (a ++ c :: b) = words a ++ words b :=
  wordsAux_append_ws c hc b a []

theorem wordsAux_allws : ∀ (t : Txt), (∀ c ∈ t, isWS c = true) →
    ∀ acc : Txt, wordsAux t acc = if acc = [] then [] else [acc.reverse] := by
  intro t
  induction t with
  | nil => intro _ acc; simp [wordsAux]
  | cons c cs ih =>
    intro ht acc
    have hc : isWS c = true := ht c (by simp)
    have ht2 : ∀ x ∈ cs, isWS x = true := fun x hx => ht x (by simp [hx])
    simp only [wordsAux, hc, if_pos]
    by_cases h : acc = []
    · rw [if_pos h, ih ht2 [], if_pos rfl, if_pos h]
    · rw [if_neg h, ih ht2 [], if_pos rfl, if_neg h]

theorem wordsAux_append_allws : ∀ (s t : Txt), (∀ c ∈ t, isWS c = true) →
    ∀ acc : Txt, wordsAux (s ++ t) acc = wordsAux s acc := by
  intro s
  induction s with
  | nil =>
    intro t ht acc
    rw [List.nil_append, wordsAux_allws t ht acc]
    simp [wordsAux]
  | cons c cs ih =>
    intro t ht acc
    simp only [List.cons_append, wordsAux, List.append_eq]
    by_cases hx : isWS c = true
    · rw [if_pos hx, if_pos hx]
      by_cases h : acc = []
      · rw [if_pos h, if_pos h, ih t ht]
      · rw [if_neg h, if_neg h, ih t ht]
    · rw [if_neg hx, if_neg hx, ih t ht]

theorem words_append_allws (s t : Txt) (ht : ∀ c ∈ t, isWS c = true) :
    words (s ++ t) = words s :=
  wordsAux_append_allws s t ht []

theorem words_stripL (s : Txt) : words (stripL s) = words s := by
  induction s with
  | nil => rfl
  | cons c cs ih =>
    show words (List.dropWhile isWS (c :: cs)) = words (c :: cs)
    rw [List.dropWhile_cons]
    by_cases h : isWS c = true
    · rw [if_pos h]
      have h2 : words (c :: cs) = words cs := by simp [words, wordsAux, h]
      rw [h2, ← ih]
      rfl
    · rw [if_neg h]

theorem stripR_decomp (s : Txt) : s = stripR s ++ (s.reverse.takeWhile isWS).reverse := by
  have h2 := congrArg List.reverse (List.takeWhile_append_dropWhile isWS s.reverse)
  rw [List.reverse_append, List.reverse_reverse] at h2
  exact h2.symm

theorem words_stripR (s : Txt) : words (stripR s) = words s := by
  conv_rhs => rw [stripR_decomp s]
  rw [words_append_allws]
  intro c hc
  rw [List.mem_reverse] at hc
  exact List.mem_takeWhile_imp hc

theorem words_strip (s : Txt) : words (strip s) = words s := by
  rw [strip, words_stripR, words_stripL]

theorem dropWhile_allP {p : Char → Bool} {t : Txt} (ht : ∀ c ∈ t, p c = true) :
    t.dropWhile p = [] := List.dropWhile_eq_nil_iff.mpr ht

theorem stripR_append_allws (s t : Txt) (ht : ∀ c ∈ t, isWS c = true) :
    stripR (s ++ t) = stripR s := by
  simp only [stripR, List.reverse_append]
  rw [List.dropWhile_append, dropWhile_allP (fun c hc => ht c (List.mem_reverse.mp hc))]
  simp

theorem strip_append_allws (s t : Txt) (ht : ∀ c ∈ t, isWS c = true) :
    strip (s ++ t) = strip s := by
  simp only [strip, stripL]
  rw [List.dropWhile_append]
  by_cases h : (List.dropWhile isWS s).isEmpty
  · rw [if_pos h]
    rw [dropWhile_allP ht]
    rw [List.isEmpty_iff] at h
    rw [h]
  · rw [if_neg h]
    exact stripR_append_allws _ t ht

theorem words_append_endws (cur rest : Txt) (h : endsWS cur) :
    words (cur ++ rest) = words cur ++ words rest := by
  rcases h with h | ⟨t, c, rfl, hc⟩
  · subst h
    simp [words, wordsAux]
  · have h1 : words (t ++ [c]) = words t := words_append_allws t [c] (by simp [hc])
    calc words ((t ++ [c]) ++ rest) = words (t ++ (c :: rest)) := by
          rw [List.append_assoc]; rfl
      _ = words t ++ words rest := words_append_ws t c rest hc
      _ = words (t ++ [c]) ++ words rest := by rw [h1]

theorem consHead_ne_nil (c : Char) (L : List Txt) : consHead c L ≠ [] := by
  cases L <;> simp [consHead]

theorem splitOnD_ne_nil (d1 d2 : Char) (s : Txt) : splitOnD d1 d2 s ≠ [] := by
  cases s with
  | nil => simp [splitOnD]
  | cons c1 t =>
    cases t with
    | nil => simp [splitOnD]
    | cons c2 rest =>
      rw [splitOnD]
      by_cases h : (c1 = d1 && c2 = d2) = true
      · simp [h]
      · rw [if_neg h]
        exact consHead_ne_nil _ _

theorem joinD_consHead (d1 d2 c : Char) (L : List Txt) (hL : L ≠ []) :
    joinD d1 d2 (consHead c L) = c :: joinD d1 d2 L := by
  match L with
  | [] => exact absurd rfl hL
  | [x] => rfl
  | x :: y :: rest => rfl

theorem joinD_splitOnD (d1 d2 : Char) : ∀ s : Txt, joinD d1 d2 (splitOnD d1 d2 s) = s
  | [] => by simp [splitOnD, joinD]
  | [c] => by simp [splitOnD, joinD]
  | c1 :: c2 :: rest => by
    rw [splitOnD]
    by_cases h : (c1 = d1 && c2 = d2) = true
    · rw [if_pos h]
      simp only [Bool.and_eq_true, decide_eq_true_eq] at h
      obtain ⟨rfl, rfl⟩ := h
      obtain ⟨x, xs, hxx⟩ := List.exists_cons_of_ne_nil (splitOnD_ne_nil c1 c2 rest)
      rw [hxx]
      show c1 :: c2 :: joinD c1 c2 (x :: xs) = c1 :: c2 :: rest
      rw [← hxx, joinD_splitOnD c1 c2 rest]
    · rw [if_neg h]
      rw [joinD_consHead _ _ _ _ (splitOnD_ne_nil _ _ _)]
      rw [joinD_splitOnD d1 d2 (c2 :: rest)]

theorem words_joinD (d1 d2 : Char) (h1 : isWS d1 = true) (h2 : isWS d2 = true) :
    ∀ parts : List Txt, words (joinD d1 d2 parts) = (parts.map words).flatten
  | [] => by simp [joinD, words, wordsAux]
  | [x] => by simp [joinD]
  | x :: y :: rest => by
    rw [joinD, words_append_ws x d1 _ h1]
    have hh : words (d2 :: joinD d1 d2 (y :: rest)) = words (joinD d1 d2 (y :: rest)) := by
      simp [words, wordsAux, h2]
    rw [hh, words_joinD d1 d2 h1 h2 (y :: rest)]
    simp

theorem words_splitOnD_nn (s : Txt) :
    ((splitOnD '\n' '\n' s).map words).flatten = words s := by
  rw [← words_joinD '\n' '\n' (by decide) (by decide) (splitOnD '\n' '\n' s),
    joinD_splitOnD]

theorem paraLoop_words (m : Nat) : ∀ ps : List Txt, (∀ p ∈ ps, p.length ≤ m) →
    ∀ (segs : List Txt) (cur : Txt), endsWS cur →
    (((paraLoop m ps (segs, cur)).1.map words).flatten ++ words (paraLoop m ps (segs, cur)).2
      = (segs.map words).flatten ++ words cur ++ (ps.map words).flatten)
    ∧ endsWS (paraLoop m ps (segs, cur)).2
  | [], _, segs, cur, hc => by
    constructor
    · simp [paraLoop]
    · simpa [paraLoop] using hc
  | p :: rest, h, segs, cur, hc => by
    have hp : p.length ≤ m := h p (by simp)
    have hrest : ∀ q ∈ rest, q.length ≤ m := fun q hq => h q (by simp [hq])
    have hwp : words (p ++ ['\n', '\n']) = words p :=
      words_append_allws p ['\n', '\n'] (by decide)
    rw [paraLoop]
    by_cases hfit : cur.length + p.length + 2 ≤ m
    · rw [if_pos hfit]
      have hend2 : endsWS (cur ++ p ++ ['\n', '\n']) :=
        Or.inr ⟨cur ++ p ++ ['\n'], '\n', by simp, by decide⟩
      have ih := paraLoop_words m rest hrest segs (cur ++ p ++ ['\n', '\n']) hend2
      refine ⟨?_, ih.2⟩
      rw [ih.1]
      have hw2 : words (cur ++ p ++ ['\n', '\n']) = words cur ++ words p := by
        rw [List.append_assoc, words_append_endws cur _ hc]
        congr 1
      rw [hw2]
      simp [List.append_assoc]
    · rw [if_neg hfit]
      have hnl : ¬ (m < p.length) := by omega
      rw [if_neg hnl]
      have hend2 : endsWS (p ++ ['\n', '\n']) :=
        Or.inr ⟨p ++ ['\n'], '\n', by simp, by decide⟩
      by_cases hcur : cur = []
      · rw [if_pos hcur]
        have ih := paraLoop_words m rest hrest segs (p ++ ['\n', '\n']) hend2
        refine ⟨?_, ih.2⟩
        rw [ih.1, hwp]
        subst hcur
        simp [words, wordsAux, List.append_assoc]
      · rw [if_neg hcur]
        have ih := paraLoop_words m rest hrest (segs ++ [strip cur]) (p ++ ['\n', '\n']) hend2
        refine ⟨?_, ih.2⟩
        rw [ih.1, hwp, List.map_append, List.flatten_append]
        simp [words_strip, List.append_assoc]

theorem firstPass_words (m : Nat) (text : Txt)
    (h : ∀ p ∈ splitOnD '\n' '\n' text, p.length ≤ m) :
    ((firstPass m text).map words).flatten = words text := by
  have hmain := paraLoop_words m (splitOnD '\n' '\n' text) h [] [] (Or.inl rfl)
  have h1 := hmain.1
  simp only [List.map_nil, List.flatten_nil, List.nil_append] at h1
  have hw0 : words ([] : Txt) = [] := by simp [words, wordsAux]
  rw [hw0, List.nil_append, words_splitOnD_nn] at h1
  rw [firstPass, flushFinal]
  by_cases h2 : (paraLoop m (splitOnD '\n' '\n' text) ([], [])).2 = []
  · rw [if_pos h2]
    rw [h2, hw0, List.append_nil] at h1
    exact h1
  · rw [if_neg h2]
    rw [List.map_append, List.flatten_append]
    simpa [words_strip] using h1

/-- Claim C4, amended: with overlap zero (so that no overlap fragment is
injected and no re-truncation can drop text) and with every paragraph within
the maximum size (so that the sentence splitter, which appends periods, never
runs), concatenating the chunks reproduces every word of the input exactly
once and in order. -/
theorem chunker_preserves_words_no_overlap (text : Txt) (m : Nat)
    (h : ∀ p ∈ splitOnD '\n' '\n' text, p.length ≤ m) :
    (((splitText text m 0).map words).flatten) = words text := by
  rw [splitText]
  by_cases hlen : text.length ≤ m
  · rw [if_pos hlen]
    simp
  · rw [if_neg hlen, if_pos (Or.inl rfl)]
    exact firstPass_words m text h

/-- Witness for the amended C4 theorem at a concrete two-paragraph input. -/
theorem chunker_preserves_words_witness :
    ((splitText "aa bb\n\ncc dd".toList 8 0).map words).flatten
      = words "aa bb\n\ncc dd".toList :=
  chunker_preserves_words_no_overlap "aa bb\n\ncc dd".toList 8 (by decide)

theorem mem_zipWith_exists {α β γ : Type} {f : α → β → γ} {x : γ} :
    ∀ {as : List α} {bs : List β},
    x ∈ List.zipWith f as bs → ∃ a b, a ∈ as ∧ b ∈ bs ∧ x = f a b := by
  intro as
  induction as with
  | nil => intro bs h; simp at h
  | cons a as ih =>
    intro bs h
    cases bs with
    | nil => simp at h
    | cons b bs =>
      rw [List.zipWith_cons_cons] at h
      rcases List.mem_cons.mp h with h | h
      · exact ⟨a, b, by simp, by simp, h⟩
      · obtain ⟨a2, b2, ha, hb, hx⟩ := ih h
        exact ⟨a2, b2, by simp [ha], by simp [hb], hx⟩

/-- Counterexample to claim C4 as stated: for the concrete input below with
maximum size 12 and overlap 6, the re-truncation step of the overlap pass
cuts the tail of the second segment, so the word dddd of the input appears in
no returned chunk at all and no removal of injected overlap heads can
reconstruct the input words. -/
theorem deoverlap_words_counterexample :
    ¬ deoverlapPreservesWords "aaaa bbbb\n\ncccc dddd eeee".toList 12 6 := by
  intro hcl
  obtain ⟨ks, _, _, heq⟩ := hcl
  have hd : "dddd".toList ∈ words "aaaa bbbb\n\ncccc dddd eeee".toList := by decide
  rw [← heq, List.mem_flatMap] at hd
  obtain ⟨r, hr, hdr⟩ := hd
  obtain ⟨k, c, _, hcmem, hrkc⟩ := mem_zipWith_exists hr
  have hinf : "dddd".toList <:+: c := by
    have h1 := words_infix r _ hdr
    rw [hrkc] at h1
    exact h1.trans (List.drop_suffix k c).isInfix
  have hcs : splitText "aaaa bbbb\n\ncccc dddd eeee".toList 12 6
      = ["aaaa bbbb".toList, "bbbb cccc dd".toList] := by decide
  rw [hcs] at hcmem
  rcases List.mem_cons.mp hcmem with rfl | hcmem
  · exact absurd hinf (by decide)
  · rcases List.mem_cons.mp hcmem with rfl | hcmem
    · exact absurd hinf (by decide)
    · simp at hcmem

theorem strip_nil : strip ([] : Txt) = [] := by decide

theorem flushOK (paras : List Txt) (m : Nat) (cur : Txt) (h : curOK paras m cur) :
    chunkOK paras m (strip cur) := by
  rcases h with rfl | hle | ⟨p, hp, hpl, s, hs, rfl⟩ | ⟨p, hp, hpl, rfl⟩
  · left
    rw [strip_nil]
    simp
  · left
    exact le_trans (strip_length_le _) hle
  · by_cases hlen : (strip (s ++ ['.', ' '])).length ≤ m
    · left
      exact hlen
    · right
      exact ⟨by omega, p, hp, hpl, s, hs, rfl⟩
  · left
    rw [strip_append_allws p _ (by decide)]
    exact le_trans (strip_length_le _) hpl

theorem sentLoop_OK (paras : List Txt) (m : Nat) (p : Txt) (hp : p ∈ paras)
    (hpl : m < p.length) :
    ∀ ss : List Txt, (∀ s ∈ ss, s ∈ splitOnD '.' ' ' p) →
    ∀ (segs : List Txt) (cur : Txt),
    (∀ c ∈ segs, chunkOK paras m c) → curOK paras m cur →
    (∀ c ∈ (sentLoop m ss (segs, cur)).1, chunkOK paras m c)
      ∧ curOK paras m (sentLoop m ss (segs, cur)).2
  | [], _, segs, cur, hsegs, hcur => by
    rw [sentLoop]
    exact ⟨hsegs, hcur⟩
  | s :: rest, hss, segs, cur, hsegs, hcur => by
    have hss2 : ∀ x ∈ rest, x ∈ splitOnD '.' ' ' p := fun x hx => hss x (by simp [hx])
    rw [sentLoop]
    by_cases hfit : cur.length + s.length + 2 ≤ m
    · rw [if_pos hfit]
      apply sentLoop_OK paras m p hp hpl rest hss2 segs _ hsegs
      right; left
      simp only [List.length_append, List.length_cons, List.length_nil]
      omega
    · rw [if_neg hfit]
      apply sentLoop_OK paras m p hp hpl rest hss2 _ _
      · intro c hc
        by_cases hcnil : cur = []
        · rw [if_pos hcnil] at hc
          exact hsegs c hc
        · rw [if_neg hcnil] at hc
          rcases List.mem_append.mp hc with hc | hc
          · exact hsegs c hc
          · rw [List.mem_singleton] at hc
            subst hc
            exact flushOK paras m cur hcur
      · right; right; left
        exact ⟨p, hp, hpl, s, hss s (by simp), rfl⟩

theorem paraLoop_OK (paras : List Txt) (m : Nat) :
    ∀ ps : List Txt, (∀ p ∈ ps, p ∈ paras) →
    ∀ (segs : List Txt) (cur : Txt),
    (∀ c ∈ segs, chunkOK paras m c) → curOK paras m cur →
    (∀ c ∈ (paraLoop m ps (segs, cur)).1, chunkOK paras m c)
      ∧ curOK paras m (paraLoop m ps (segs, cur)).2
  | [], _, segs, cur, hsegs, hcur => by
    rw [paraLoop]
    exact ⟨hsegs, hcur⟩
  | p :: rest, h, segs, cur, hsegs, hcur => by
    have hp : p ∈ paras := h p (by simp)
    have hrest : ∀ q ∈ rest, q ∈ paras := fun q hq => h q (by simp [hq])
    have hflush : ∀ c ∈ (if cur = [] then segs else segs ++ [strip cur]), chunkOK paras m c := by
      intro c hc
      by_cases hcnil : cur = []
      · rw [if_pos hcnil] at hc
        exact hsegs c hc
      · rw [if_neg hcnil] at hc
        rcases List.mem_append.mp hc with hc | hc
        · exact hsegs c hc
        · rw [List.mem_singleton] at hc
          subst hc
          exact flushOK paras m cur hcur
    rw [paraLoop]
    by_cases hfit : cur.length + p.length + 2 ≤ m
    · rw [if_pos hfit]
      apply paraLoop_OK paras m rest hrest segs _ hsegs
      right; left
      simp only [List.length_append, List.length_cons, List.length_nil]
      omega
    · rw [if_neg hfit]
      by_cases hlong : m < p.length
      · rw [if_pos hlong]
        have hs := sentLoop_OK paras m p hp hlong (splitOnD '.' ' ' p) (fun _ hx => hx)
          _ [] hflush (Or.inl rfl)
        exact paraLoop_OK paras m rest hrest _ _ hs.1 hs.2
      · rw [if_neg hlong]
        apply paraLoop_OK paras m rest hrest _ _ hflush
        right; right; right
        exact ⟨p, hp, by omega, rfl⟩

theorem firstPass_OK (m : Nat) (text : Txt) :
    ∀ c ∈ firstPass m text, chunkOK (splitOnD '\n' '\n' text) m c := by
  intro c hc
  have hmain := paraLoop_OK (splitOnD '\n' '\n' text) m (splitOnD '\n' '\n' text)
    (fun _ hx => hx) [] [] (by simp) (Or.inl rfl)
  rw [firstPass, flushFinal] at hc
  by_cases h2 : (paraLoop m (splitOnD '\n' '\n' text) ([], [])).2 = []
  · rw [if_pos h2] at hc
    exact hmain.1 c hc
  · rw [if_neg h2] at hc
    rcases List.mem_append.mp hc with hc | hc
    · exact hmain.1 c hc
    · rw [List.mem_singleton] at hc
      subst hc
      exact flushOK _ m _ hmain.2

theorem headD_mem_of_ne_nil {segs : List Txt} (h : segs ≠ []) : segs.headD [] ∈ segs := by
  cases segs with
  | nil => exact absurd rfl h
  | cons s rest => simp

theorem capTo_length_le (m : Nat) (c : Txt) : (capTo m c).length ≤ m := by
  rw [capTo]
  by_cases h : m < c.length
  · rw [if_pos h]
    simp
  · rw [if_neg h]
    omega

theorem injectOverlap_length_le (m ov : Nat) (prev cur : Txt) :
    (injectOverlap m ov prev cur).length ≤ m :=
  le_trans (strip_length_le _) (capTo_length_le _ _)

theorem mem_addOverlap (m ov : Nat) (segs : List Txt) (c : Txt)
    (hc : c ∈ addOverlap m ov segs) :
    (segs ≠ [] ∧ c = segs.headD []) ∨ c.length ≤ m := by
  match segs with
  | [] => rw [addOverlap] at hc; simp at hc
  | s0 :: rest =>
    rw [addOverlap] at hc
    rcases List.mem_cons.mp hc with rfl | hc
    · left
      exact ⟨by simp, rfl⟩
    · right
      obtain ⟨a, b, _, _, rfl⟩ := mem_zipWith_exists hc
      exact injectOverlap_length_le m ov a b

/-- Claim C5, amended: every chunk fits in the maximum size except chunks
formed by the sentence splitter from an atomic sentence s of an over-long
paragraph; such a chunk is emitted as strip of s with a period and space
appended, not as s unmodified, and exceeds the bound whenever the stripped
form is longer than the maximum size, which already happens for a sentence
of exactly the maximum size. Chunks that received an overlap fragment are
always re-truncated to the bound. -/
theorem chunk_size_bound (text : Txt) (m ov : Nat) :
    ∀ c ∈ splitText text m ov, c.length ≤ m ∨ overSent (splitOnD '\n' '\n' text) m c := by
  intro c hc
  rw [splitText] at hc
  by_cases hlen : text.length ≤ m
  · rw [if_pos hlen] at hc
    rw [List.mem_singleton] at hc
    subst hc
    left
    exact hlen
  · rw [if_neg hlen] at hc
    by_cases hcond : ov = 0 ∨ (firstPass m text).length ≤ 1
    · rw [if_pos hcond] at hc
      exact firstPass_OK m text c hc
    · rw [if_neg hcond] at hc
      rcases mem_addOverlap m ov _ c hc with ⟨hne, rfl⟩ | hle
      · exact firstPass_OK m text _ (headD_mem_of_ne_nil hne)
      · left
        exact hle

/-- Witness for the amended C5 theorem: the single chunk produced from a
seven character sentence at maximum size five is the over-long sentence
chunk with the period appended. -/
theorem chunk_size_bound_witness :
    ("aaaaaaa.".toList.length ≤ 5)
      ∨ overSent (splitOnD '\n' '\n' "aaaaaaa".toList) 5 "aaaaaaa.".toList :=
  chunk_size_bound "aaaaaaa".toList 5 0 "aaaaaaa.".toList (by decide)

/-- Counterexample to claim C5 as stated: at maximum size five the input
below produces the chunk aaaaaaa followed by a period, which is longer than
five characters yet is not any atomic sentence of the input emitted
unmodified, because the splitter appended a period to it. -/
theorem chunk_size_claim_counterexample : ¬ chunkSizeClaim "aaaaaaa".toList 5 0 := by
  unfold chunkSizeClaim
  decide


theorem overlapTrim_suffix (ot : Txt) : overlapTrim ot <:+ ot := by
  cases h : firstSpaceIdx ot with
  | none => simp [overlapTrim, h]
  | some i =>
    simp only [overlapTrim, h]
    by_cases hi : 0 < i
    · rw [if_pos hi]
      exact List.drop_suffix _ _
    · rw [if_neg hi]

theorem length_addOverlap (m ov : Nat) (segs : List Txt) :
    (addOverlap m ov segs).length = segs.length := by
  match segs with
  | [] => rfl
  | s0 :: rest =>
    rw [addOverlap]
    simp only [List.length_cons, List.length_zipWith]
    omega

/-- Claim C6, amended: for positive overlap the start of each later chunk is
the overlap fragment of the previous first-pass segment, not of the previous
returned chunk; the fragment is a suffix of the trailing ov characters of
that segment, trimmed forward past the first space only when that space sits
at a positive index, and the assembled chunk is re-truncated to the maximum
size and stripped. -/
theorem overlap_from_prev_segment (text : Txt) (m ov : Nat) (hov : 0 < ov)
    (hlen : m < text.length) (hsegs : 1 < (firstPass m text).length)
    (i : Nat) (h0 : 0 < i) (hic : i < (splitText text m ov).length) :
    (splitText text m ov).getD i []
      = injectOverlap m ov ((firstPass m text).getD (i - 1) [])
          ((firstPass m text).getD i [])
      ∧ overlapFrag ov ((firstPass m text).getD (i - 1) [])
          <:+ tailTake ov ((firstPass m text).getD (i - 1) []) := by
  have hsplit : splitText text m ov = addOverlap m ov (firstPass m text) := by
    rw [splitText, if_neg (by omega)]
    rw [if_neg (by rintro (h | h) <;> omega)]
  refine ⟨?_, overlapTrim_suffix _⟩
  rw [hsplit] at hic ⊢
  obtain ⟨s0, rest, hfp⟩ := List.exists_cons_of_ne_nil
    (show firstPass m text ≠ [] by intro hh; rw [hh] at hsegs; simp at hsegs)
  obtain ⟨j, rfl⟩ : ∃ j, i = j + 1 := ⟨i - 1, by omega⟩
  rw [length_addOverlap, hfp, List.length_cons] at hic
  have hj : j < rest.length := by omega
  rw [hfp, addOverlap, List.getD_cons_succ]
  have hjz : j < (List.zipWith (injectOverlap m ov) (s0 :: rest) rest).length := by
    rw [List.length_zipWith, List.length_cons]
    omega
  rw [List.getD_eq_getElem _ _ hjz, List.getElem_zipWith]
  have e1 : (s0 :: rest).getD (j + 1 - 1) [] = (s0 :: rest).get ⟨j, by simp; omega⟩ := by
    simp only [Nat.add_sub_cancel]
    exact List.getD_eq_getElem _ _ _
  have e2 : (s0 :: rest).getD (j + 1) [] = rest.get ⟨j, hj⟩ := by
    rw [List.getD_cons_succ]
    exact List.getD_eq_getElem _ _ _
  rw [e1, e2]
  rfl

/-- Witness for the amended C6 theorem at the concrete three-segment input:
the third chunk is assembled from the overlap fragment of the second
first-pass segment. -/
theorem overlap_from_prev_segment_witness :
    (splitText "aaaa bbbb\n\ncccc dddd eeee\n\nffff gggg".toList 12 6).getD 2 []
      = injectOverlap 12 6
          ((firstPass 12 "aaaa bbbb\n\ncccc dddd eeee\n\nffff gggg".toList).getD 1 [])
          ((firstPass 12 "aaaa bbbb\n\ncccc dddd eeee\n\nffff gggg".toList).getD 2 [])
      ∧ overlapFrag 6 ((firstPass 12 "aaaa bbbb\n\ncccc dddd eeee\n\nffff gggg".toList).getD 1 [])
          <:+ tailTake 6 ((firstPass 12 "aaaa bbbb\n\ncccc dddd eeee\n\nffff gggg".toList).getD 1 []) :=
  overlap_from_prev_segment "aaaa bbbb\n\ncccc dddd eeee\n\nffff gggg".toList 12 6
    (by decide) (by decide) (by decide) 2 (by decide) (by decide)

/-- Counterexample to claim C6 as stated: for the concrete input below the
second returned chunk is re-truncated, so the third chunk begins with
characters taken from the second first-pass segment that do not occur in the
trailing six characters of the second returned chunk; no non-empty suffix of
those trailing characters is a prefix of the third chunk. -/
theorem overlap_claim_counterexample :
    ¬ overlapClaim "aaaa bbbb\n\ncccc dddd eeee\n\nffff gggg".toList 12 6 := by
  intro h
  have h2 := h 2 (by decide) (by decide)
  revert h2
  decide


theorem digitVal_digitChar (n : Nat) (h : n < 10) : digitVal (digitChar n) = n := by
  interval_cases n <;> rfl

theorem natDecAux_foldl (fuel : Nat) : ∀ (n : Nat) (acc : Txt), n < fuel →
    (natDecAux n fuel acc).foldl (fun a c => a * 10 + digitVal c) 0
      = acc.foldl (fun a c => a * 10 + digitVal c) n := by
  induction fuel with
  | zero => intro n acc h; omega
  | succ f ih =>
    intro n acc h
    rw [natDecAux]
    by_cases h10 : n < 10
    · rw [if_pos h10, List.foldl_cons]
      simp [digitVal_digitChar n h10]
    · rw [if_neg h10]
      have hlt : n / 10 < f := by
        have h1 : n / 10 < n := Nat.div_lt_self (by omega) (by norm_num)
        omega
      rw [ih (n / 10) _ hlt, List.foldl_cons]
      congr 1
      rw [digitVal_digitChar (n % 10) (Nat.mod_lt _ (by norm_num))]
      have := Nat.div_add_mod n 10
      omega

theorem natDec_val (n : Nat) :
    (natDec n).foldl (fun a c => a * 10 + digitVal c) 0 = n := by
  rw [natDec, natDecAux_foldl (n + 1) n [] (by omega)]
  rfl

theorem natDec_inj {a b : Nat} (h : natDec a = natDec b) : a = b := by
  have ha := natDec_val a
  rw [h, natDec_val b] at ha
  exact ha.symm

theorem natDecAux_mem (fuel : Nat) : ∀ (n : Nat) (acc : Txt) (c : Char),
    c ∈ natDecAux n fuel acc → c ∈ acc ∨ ∃ d, d < 10 ∧ c = digitChar d := by
  induction fuel with
  | zero =>
    intro n acc c h
    rw [natDecAux] at h
    exact Or.inl h
  | succ f ih =>
    intro n acc c h
    rw [natDecAux] at h
    by_cases h10 : n < 10
    · rw [if_pos h10] at h
      rcases List.mem_cons.mp h with rfl | h
      · exact Or.inr ⟨n, h10, rfl⟩
      · exact Or.inl h
    · rw [if_neg h10] at h
      rcases ih (n / 10) _ c h with h | h
      · rcases List.mem_cons.mp h with rfl | h
        · exact Or.inr ⟨n % 10, Nat.mod_lt _ (by norm_num), rfl⟩
        · exact Or.inl h
      · exact Or.inr h

theorem natDec_digit (n : Nat) (c : Char) (hc : c ∈ natDec n) :
    ∃ d, d < 10 ∧ c = digitChar d := by
  rcases natDecAux_mem (n + 1) n [] c hc with h | h
  · simp at h
  · exact h

theorem natDecAux_ne_nil (fuel : Nat) : ∀ (n : Nat) (acc : Txt), n < fuel →
    natDecAux n fuel acc ≠ [] := by
  induction fuel with
  | zero => intro n acc h; omega
  | succ f ih =>
    intro n acc h
    rw [natDecAux]
    by_cases h10 : n < 10
    · simp [h10]
    · rw [if_neg h10]
      apply ih (n / 10)
      have h1 : n / 10 < n := Nat.div_lt_self (by omega) (by norm_num)
      omega

theorem natDec_ne_nil (n : Nat) : natDec n ≠ [] :=
  natDecAux_ne_nil (n + 1) n [] (by omega)

theorem digitChar_allowed (d : Nat) (h : d < 10) : isAllowedChar (digitChar d) = true := by
  interval_cases d <;> decide

theorem digitChar_not_dash (d : Nat) (h : d < 10) : isDash (digitChar d) = false := by
  interval_cases d <;> decide

theorem map_eq_self_of {f : Char → Char} : ∀ l : Txt, (∀ c ∈ l, f c = c) → l.map f = l
  | [], _ => rfl
  | c :: cs, h => by
    rw [List.map_cons, h c (by simp), map_eq_self_of cs (fun x hx => h x (by simp [hx]))]

theorem sanitize_natDec (i : Nat) : (natDec i).map sanitizeChar = natDec i := by
  apply map_eq_self_of
  intro c hc
  obtain ⟨d, hd, rfl⟩ := natDec_digit i c hc
  rw [sanitizeChar, if_pos (digitChar_allowed d hd)]

theorem collapseDash_nodash : ∀ l : Txt, (∀ c ∈ l, c ≠ '-') → collapseDash l = l
  | [], _ => rfl
  | [c], _ => rfl
  | c1 :: c2 :: rest, h => by
    rw [collapseDash]
    have hc1 : c1 ≠ '-' := h c1 (by simp)
    rw [if_neg (by simp [hc1])]
    rw [collapseDash_nodash (c2 :: rest) (fun x hx => h x (by simp [hx]))]

theorem collapseDash_append_sep : ∀ (x : Txt) (c : Char) (d : Txt), c ≠ '-' →
    (∀ e ∈ d, e ≠ '-') → collapseDash (x ++ c :: d) = collapseDash (x ++ [c]) ++ d
  | [], c, d, hc, hd => by
    simp only [List.nil_append]
    rw [collapseDash_nodash (c :: d) ?hall]
    case hall =>
      intro e he
      rcases List.mem_cons.mp he with rfl | he
      · exact hc
      · exact hd e he
    rfl
  | [a], c, d, hc, hd => by
    show collapseDash (a :: c :: d) = collapseDash (a :: c :: []) ++ d
    rw [collapseDash, collapseDash]
    rw [if_neg (by simp [hc]), if_neg (by simp [hc])]
    rw [collapseDash_nodash (c :: d) ?hall]
    case hall =>
      intro e he
      rcases List.mem_cons.mp he with rfl | he
      · exact hc
      · exact hd e he
    rfl
  | a :: b :: t, c, d, hc, hd => by
    show collapseDash (a :: b :: (t ++ c :: d)) = collapseDash (a :: b :: (t ++ [c])) ++ d
    rw [collapseDash, collapseDash]
    by_cases hab : (a = '-' && b = '-') = true
    · rw [if_pos hab, if_pos hab]
      exact collapseDash_append_sep (b :: t) c d hc hd
    · rw [if_neg hab, if_neg hab]
      have hrec := collapseDash_append_sep (b :: t) c d hc hd
      rw [show (b :: t) ++ c :: d = b :: (t ++ c :: d) from rfl] at hrec
      rw [show (b :: t) ++ [c] = b :: (t ++ [c]) from rfl] at hrec
      rw [hrec]
      rfl

theorem dropWhile_isDash_natDec (i : Nat) : (natDec i).dropWhile isDash = natDec i := by
  obtain ⟨c, cs, hnd⟩ := List.exists_cons_of_ne_nil (natDec_ne_nil i)
  obtain ⟨d, hd10, hcd⟩ := natDec_digit i c (by rw [hnd]; simp)
  rw [hnd, List.dropWhile_cons, hcd, digitChar_not_dash d hd10]
  simp

theorem reverse_dropWhile_digits (x : Txt) (i : Nat) :
    ((x ++ natDec i).reverse.dropWhile isDash).reverse = x ++ natDec i := by
  obtain ⟨c, t, hrev⟩ := List.exists_cons_of_ne_nil
    (show (natDec i).reverse ≠ [] by
      intro hh
      exact natDec_ne_nil i (by simpa using congrArg List.reverse hh))
  have hc : c ∈ natDec i := by
    rw [← List.mem_reverse, hrev]
    simp
  obtain ⟨d, hd10, hcd⟩ := natDec_digit i c hc
  have hcnd : isDash c = false := by
    rw [hcd]
    exact digitChar_not_dash d hd10
  rw [List.reverse_append, hrev]
  rw [show (c :: t) ++ x.reverse = c :: (t ++ x.reverse) from rfl]
  rw [List.dropWhile_cons, hcnd]
  simp only [Bool.false_eq_true, if_false]
  rw [show c :: (t ++ x.reverse) = (c :: t) ++ x.reverse from rfl, ← hrev,
    ← List.reverse_append, List.reverse_reverse]

theorem stripDash_append_digits (q : Txt) (i : Nat) :
    stripDash (q ++ natDec i) = q.dropWhile isDash ++ natDec i := by
  rw [stripDash, List.dropWhile_append]
  by_cases hq : (q.dropWhile isDash).isEmpty
  · rw [if_pos hq]
    rw [List.isEmpty_iff] at hq
    rw [hq, List.nil_append, dropWhile_isDash_natDec i]
    have := reverse_dropWhile_digits [] i
    simpa using this
  · rw [if_neg hq]
    exact reverse_dropWhile_digits (q.dropWhile isDash) i

theorem chunkId_structure (f : Txt) (i : Nat) :
    chunkId f i
      = (collapseDash ((splitextBase f).map sanitizeChar ++ ['_'])).dropWhile isDash
        ++ natDec i := by
  have h1 : (splitextBase f ++ '_' :: natDec i).map sanitizeChar
      = (splitextBase f).map sanitizeChar ++ '_' :: natDec i := by
    rw [List.map_append, List.map_cons]
    rw [show sanitizeChar '_' = '_' by decide]
    rw [sanitize_natDec]
  have h2 : collapseDash ((splitextBase f).map sanitizeChar ++ '_' :: natDec i)
      = collapseDash ((splitextBase f).map sanitizeChar ++ ['_']) ++ natDec i := by
    apply collapseDash_append_sep
    · decide
    · intro e he
      obtain ⟨d, hd, rfl⟩ := natDec_digit i e he
      have := digitChar_not_dash d hd
      intro hcontra
      rw [hcontra] at this
      exact absurd this (by decide)
  have h3 : stripDash (collapseDash ((splitextBase f ++ '_' :: natDec i).map sanitizeChar))
      = (collapseDash ((splitextBase f).map sanitizeChar ++ ['_'])).dropWhile isDash
        ++ natDec i := by
    rw [h1, h2, stripDash_append_digits]
  rw [chunkId, h3]
  rw [if_neg (by simp [natDec_ne_nil i])]

/-- Claim C8, amended: the chunk identifier is a deterministic pure function
of filename and chunk index, and identifiers of distinct chunk indices of
the same source filename never collide; across distinct filenames
identifiers can collide, so within-run uniqueness holds per filename only. -/
theorem chunkId_injective_per_file (f : Txt) (i j : Nat) :
    chunkId f i = chunkId f j ↔ i = j := by
  constructor
  · intro h
    rw [chunkId_structure, chunkId_structure] at h
    exact natDec_inj (List.append_cancel_left h)
  · rintro rfl
    rfl

/-- Counterexample to claim C8 as stated: the distinct source filenames
a.pdf and a.txt both derive the sanitized identifier a_0 for chunk index
zero, so identifiers are not pairwise unique across distinct filenames
within one ingestion run. -/
theorem chunkId_cross_file_counterexample : ¬ chunkIdsUniqueAcrossFiles := by
  intro h
  exact h "a.pdf".toList "a.txt".toList 0 0 (by decide) (by decide)

theorem chunksOf25Aux_nil {α : Type} (fuel : Nat) : chunksOf25Aux fuel ([] : List α) = [] := by
  cases fuel <;> rfl

theorem chunksOf25Aux_congr {α : Type} : ∀ f1 : Nat, ∀ (l : List α) (f2 : Nat),
    l.length ≤ f1 → l.length ≤ f2 → chunksOf25Aux f1 l = chunksOf25Aux f2 l := by
  intro f1
  induction f1 with
  | zero =>
    intro l f2 h1 _
    have hl : l = [] := List.eq_nil_of_length_eq_zero (by omega)
    subst hl
    rw [chunksOf25Aux_nil, chunksOf25Aux_nil]
  | succ f ih =>
    intro l f2 h1 h2
    cases l with
    | nil => rw [chunksOf25Aux_nil, chunksOf25Aux_nil]
    | cons c cs =>
      cases f2 with
      | zero => simp at h2
      | succ g =>
        rw [show chunksOf25Aux (f + 1) (c :: cs)
          = (c :: cs).take 25 :: chunksOf25Aux f ((c :: cs).drop 25) from rfl]
        rw [show chunksOf25Aux (g + 1) (c :: cs)
          = (c :: cs).take 25 :: chunksOf25Aux g ((c :: cs).drop 25) from rfl]
        congr 1
        apply ih
        · simp only [List.length_drop, List.length_cons] at h1 ⊢
          omega
        · simp only [List.length_drop, List.length_cons] at h2 ⊢
          omega

theorem chunksOf25_cons {α : Type} (l : List α) (h : l ≠ []) :
    chunksOf25 l = l.take 25 :: chunksOf25 (l.drop 25) := by
  obtain ⟨c, cs, rfl⟩ := List.exists_cons_of_ne_nil h
  rw [chunksOf25]
  rw [show (c :: cs).length = cs.length + 1 from rfl]
  rw [show chunksOf25Aux (cs.length + 1) (c :: cs)
    = (c :: cs).take 25 :: chunksOf25Aux cs.length ((c :: cs).drop 25) from rfl]
  congr 1
  rw [chunksOf25]
  apply chunksOf25Aux_congr
  · rw [List.length_drop]
    rw [List.length_cons]
    omega
  · exact le_refl _

theorem generateEmbeddingsBatch_length (f : Txt → List Int) (fails : List Txt → Bool)
    (b : List Txt) : (generateEmbeddingsBatch f fails b).length = b.length := by
  rw [generateEmbeddingsBatch]
  by_cases hb : fails (b.map truncate20000) = true
  · rw [if_pos hb, List.length_replicate]
  · rw [if_neg hb, List.length_map]

theorem generateEmbeddingsBatch_getD (f : Txt → List Int) (fails : List Txt → Bool)
    (b : List Txt) (i : Nat) (hi : i < b.length) :
    (generateEmbeddingsBatch f fails b).getD i none
      = (if fails (b.map truncate20000) then none
         else some (f (truncate20000 (b.getD i [])))) := by
  rw [generateEmbeddingsBatch]
  by_cases hb : fails (b.map truncate20000) = true
  · rw [if_pos hb, if_pos hb]
    rw [List.getD_eq_getElem _ _ (by rw [List.length_replicate]; exact hi)]
    exact List.getElem_replicate _ _
  · rw [if_neg hb, if_neg hb]
    rw [List.getD_eq_getElem _ _ (by rw [List.length_map]; exact hi), List.getElem_map]
    rw [List.getD_eq_getElem _ _ hi]

theorem generateAllEmbeddings_nil (f : Txt → List Int) (fails : List Txt → Bool) :
    generateAllEmbeddings f fails [] = [] := by
  rw [generateAllEmbeddings, chunksOf25]
  rfl

/-- Claim C9, amended: the batcher output has the same length and order as
the input, the input is cut into consecutive sub-batches of 25, and the
entry at each position is none exactly when the service call for the
sub-batch containing that position fails, and otherwise is the embedding of
that position's truncated text. Failure granularity is the whole sub-batch:
every item of a failing sub-batch maps to none, not only a culprit item. -/
theorem embed_batch_shape (f : Txt → List Int) (fails : List Txt → Bool) :
    ∀ texts : List Txt,
    (generateAllEmbeddings f fails texts).length = texts.length
    ∧ ∀ i, i < texts.length →
        (generateAllEmbeddings f fails texts).getD i none
          = (if fails (((chunksOf25 texts).getD (i / 25) []).map truncate20000) then none
             else some (f (truncate20000 (texts.getD i [])))) := by
  intro texts
  generalize htl : texts.length = n
  induction n using Nat.strong_induction_on generalizing texts with
  | _ n ih =>
    subst htl
    by_cases hnil : texts = []
    · subst hnil
      refine ⟨by simp [generateAllEmbeddings_nil], ?_⟩
      intro i hi
      simp at hi
    · have hsplit : generateAllEmbeddings f fails texts
          = generateEmbeddingsBatch f fails (texts.take 25)
            ++ generateAllEmbeddings f fails (texts.drop 25) := by
        rw [generateAllEmbeddings, chunksOf25_cons texts hnil, List.flatMap_cons,
          generateAllEmbeddings]
      have hlen25 : (texts.take 25).length = min 25 texts.length := List.length_take _ _
      have hdroplen : (texts.drop 25).length = texts.length - 25 := List.length_drop _ _
      have hlt : (texts.drop 25).length < texts.length := by
        rw [hdroplen]
        have := List.length_pos.mpr hnil
        omega
      have ihd := ih (texts.drop 25).length hlt (texts.drop 25) rfl
      constructor
      · rw [hsplit, List.length_append, generateEmbeddingsBatch_length, ihd.1, hlen25,
          hdroplen]
        have := List.length_pos.mpr hnil
        omega
      · intro i hi
        rw [hsplit]
        by_cases h25 : i < 25
        · have hifst : i < (generateEmbeddingsBatch f fails (texts.take 25)).length := by
            rw [generateEmbeddingsBatch_length, hlen25]
            omega
          rw [List.getD_append _ _ _ _ hifst]
          rw [generateEmbeddingsBatch_getD f fails _ i (by rw [hlen25]; omega)]
          rw [Nat.div_eq_of_lt h25]
          rw [chunksOf25_cons texts hnil, List.getD_cons_zero]
          have harg : (texts.take 25).getD i [] = texts.getD i [] := by
            rw [List.getD_eq_getElem _ _ (by rw [hlen25]; omega), List.getElem_take,
              List.getD_eq_getElem _ _ hi]
          rw [harg]
        · have hge : 25 ≤ i := by omega
          obtain ⟨j, rfl⟩ : ∃ j, i = 25 + j := ⟨i - 25, by omega⟩
          have hblen : (generateEmbeddingsBatch f fails (texts.take 25)).length = 25 := by
            rw [generateEmbeddingsBatch_length, hlen25]
            omega
          rw [List.getD_append_right _ _ _ _ (by rw [hblen]; omega), hblen]
          rw [show 25 + j - 25 = j by omega]
          have hi2 : j < (texts.drop 25).length := by
            rw [hdroplen]
            omega
          rw [ihd.2 j hi2]
          rw [show (25 + j) / 25 = j / 25 + 1 by
            rw [Nat.add_comm, Nat.add_div_right _ (by norm_num)]]
          rw [chunksOf25_cons texts hnil, List.getD_cons_succ]
          have harg : (texts.drop 25).getD j [] = texts.getD (25 + j) [] := by
            rw [List.getD_eq_getElem _ _ hi2, List.getElem_drop,
              List.getD_eq_getElem _ _ (by omega)]
          rw [harg]

/-- Witness for the amended C9 theorem: a single-text input whose sub-batch
call fails yields none at position zero. -/
theorem embed_batch_shape_witness :
    (generateAllEmbeddings (fun _ => ([] : List Int)) (fun _ => true) ["x".toList]).getD 0 none
      = none :=
  (embed_batch_shape (fun _ => ([] : List Int)) (fun _ => true) ["x".toList]).2 0 (by decide)

/-- Counterexample to claim C9 as stated, in its final clause: with three
texts in one sub-batch of 25 and only the middle text making the service
call fail, the code maps all three positions to none, so the surrounding
positions do not succeed. -/
theorem per_item_failure_counterexample : ¬ perItemFailureClaim := by
  intro h
  have h2 := h (fun _ => []) "a".toList "b".toList "c".toList
  revert h2
  decide

theorem insertSeqGo_none {ρ : Type} : ∀ (i : Nat) (rows : List ρ),
    insertSeqGo none i rows = .ok rows
  | _, [] => rfl
  | i, r :: rest => by
    rw [insertSeqGo, if_neg (by simp), insertSeqGo_none (i + 1) rest]

theorem insertSeq_none {ρ : Type} (rows : List ρ) : insertSeq none rows = .ok rows :=
  insertSeqGo_none 0 rows

theorem insertSeqGo_fail {ρ : Type} (k : Nat) : ∀ (i : Nat) (rows : List ρ),
    i ≤ k → k < i + rows.length → insertSeqGo (some k) i rows = .error k
  | i, [], h1, h2 => by
    rw [List.length_nil] at h2
    omega
  | i, r :: rest, h1, h2 => by
    rw [insertSeqGo]
    by_cases hik : (some k : Option Nat) = some i
    · rw [if_pos hik]
      rw [Option.some.injEq] at hik
      rw [hik]
    · rw [if_neg hik]
      have hne : k ≠ i := fun h => hik (by rw [h])
      rw [List.length_cons] at h2
      rw [insertSeqGo_fail k (i + 1) rest (by omega) (by omega)]

theorem insertSeq_fail {ρ : Type} (k : Nat) (rows : List ρ) (h : k < rows.length) :
    insertSeq (some k) rows = .error k :=
  insertSeqGo_fail k 0 rows (by omega) (by omega)

/-- Claim C1, amended: both storage steps run one delete-then-insert
transaction per merchant that is all-or-nothing: on success the merchant
rows are replaced by the new set and the transaction commits only after
every insert succeeded; on an insert failure the whole transaction is
rolled back, leaving every pre-existing row intact. The failure is then
re-raised for product imports, but document-chunk storage catches it and
returns the pre-failure insert count normally instead of propagating. -/
theorem storage_transactions (merchant : String) :
    (∀ (products : List SProduct) (embs : List (Option (List Int))) (db : List PRow),
      importProductsModel merchant false none products embs db
        = (.ok (List.zipWith (mkPRow merchant) products embs).length,
           db.filter (fun r => r.merchant ≠ merchant)
             ++ List.zipWith (mkPRow merchant) products embs))
    ∧ (∀ (products : List SProduct) (embs : List (Option (List Int)))
         (db : List PRow) (k : Nat),
        k < (List.zipWith (mkPRow merchant) products embs).length →
        importProductsModel merchant false (some k) products embs db = (.error (), db))
    ∧ (∀ (chunkData : List ChunkData) (embs : List (Option (List Int)))
         (db : List CRow) (k : Nat),
        chunkData ≠ [] →
        k < ((chunkData.zip embs).filterMap
          (fun p => p.2.map (mkCRow merchant p.1))).length →
        storeDocEmbeddingsModel merchant (some k) chunkData embs db = (.ok k, db)) := by
  refine ⟨?_, ?_, ?_⟩
  · intro products embs db
    simp [importProductsModel, insertSeq_none]
  · intro products embs db k hk
    simp [importProductsModel, insertSeq_fail k _ hk]
  · intro chunkData embs db k hne hk
    simp [storeDocEmbeddingsModel, hne, insertSeq_fail k _ hk]

/-- Witness for the amended C1 theorem: a failing insert rolls back and
leaves the pre-existing merchant row in place; the product path reports the
error while the document path returns the count zero normally. -/
theorem storage_transactions_witness :
    importProductsModel "m" false (some 0) [exP] [some [1]] [exPRow] = (.error (), [exPRow])
    ∧ storeDocEmbeddingsModel "m" (some 0) [exChunk] [some [1]] [exCRow] = (.ok 0, [exCRow]) :=
  ⟨(storage_transactions "m").2.1 [exP] [some [1]] [exPRow] 0 (by decide),
   (storage_transactions "m").2.2 [exChunk] [some [1]] [exCRow] 0 (by decide) (by decide)⟩

/-- Counterexample to claim C1 as stated: for document chunks a storage
failure during the insert phase does not propagate to the caller; the
function catches the raised error after rollback and returns normally. -/
theorem doc_storage_failure_swallowed : ¬ docStorageFailurePropagates := by
  intro h
  obtain ⟨e, he⟩ := h "m" (some 0) [exChunk] [some [1]] [] ⟨0, rfl, by decide⟩
  cases e
  rw [show (storeDocEmbeddingsModel "m" (some 0) [exChunk] [some [1]] []).1
    = Except.ok 0 from rfl] at he
  exact Except.noConfusion he

theorem length_filterMap_eq_countP {α β : Type} (f : α → Option β) : ∀ l : List α,
    (l.filterMap f).length = l.countP (fun a => (f a).isSome)
  | [] => rfl
  | a :: l => by
    rw [List.filterMap_cons, List.countP_cons]
    cases hfa : f a with
    | none => simp [hfa, length_filterMap_eq_countP f l]
    | some b => simp [hfa, length_filterMap_eq_countP f l]

/-- Claim C2, amended: product rows are always inserted, with the embedding
column set to the optional embedding of their position, unset when absent;
document chunks behave differently: the stored count equals the number of
chunks whose embedding is present, and a chunk with an absent embedding is
skipped entirely rather than stored without a vector. -/
theorem absent_embedding_handling (merchant : String) :
    (∀ (products : List SProduct) (embs : List (Option (List Int))) (db : List PRow)
       (i : Nat) (hi : i < products.length), embs.length = products.length →
       mkPRow merchant (products.get ⟨i, hi⟩) (embs.getD i none)
         ∈ (importProductsModel merchant false none products embs db).2)
    ∧ (∀ (chunkData : List ChunkData) (embs : List (Option (List Int))) (db : List CRow),
        (storeDocEmbeddingsModel merchant none chunkData embs db).1
          = .ok ((chunkData.zip embs).countP (fun p => p.2.isSome))) := by
  constructor
  · intro products embs db i hi hlen
    have hfin : (importProductsModel merchant false none products embs db).2
        = db.filter (fun r => r.merchant ≠ merchant)
          ++ List.zipWith (mkPRow merchant) products embs := by
      simp [importProductsModel, insertSeq_none]
    rw [hfin]
    apply List.mem_append_right
    have hz : i < (List.zipWith (mkPRow merchant) products embs).length := by
      rw [List.length_zipWith]
      omega
    have hval : (List.zipWith (mkPRow merchant) products embs).get ⟨i, hz⟩
        = mkPRow merchant (products.get ⟨i, hi⟩) (embs.getD i none) := by
      rw [List.get_eq_getElem, List.getElem_zipWith]
      congr 1
      rw [List.getD_eq_getElem _ _ (by omega)]
    rw [← hval]
    apply List.get_mem
  · intro chunkData embs db
    by_cases hne : chunkData = []
    · subst hne
      simp [storeDocEmbeddingsModel]
    · simp only [storeDocEmbeddingsModel, hne, insertSeq_none, if_neg hne]
      rw [length_filterMap_eq_countP]
      simp [Option.isSome_map]

/-- Witness for the amended C2 theorem: a product with an absent embedding
is still inserted with an unset vector column, and a single chunk with an
absent embedding yields a stored count of zero. -/
theorem absent_embedding_handling_witness :
    mkPRow "m" ([exP].get ⟨0, by decide⟩) ([none].getD 0 none)
      ∈ (importProductsModel "m" false none [exP] [none] []).2
    ∧ (storeDocEmbeddingsModel "m" none [exChunk] [none] []).1
        = .ok (([exChunk].zip [(none : Option (List Int))]).countP (fun p => p.2.isSome)) :=
  ⟨(absent_embedding_handling "m").1 [exP] [none] [] 0 (by decide) (by decide),
   (absent_embedding_handling "m").2 [exChunk] [none] []⟩

/-- Counterexample to claim C2 as stated: a document chunk whose embedding
is absent is not stored at all; the destination table gains no row for it,
instead of gaining a row with the vector column unset. -/
theorem absent_embedding_counterexample : ¬ absentEmbeddingStillStored := by
  intro h
  obtain ⟨r, hr, _⟩ := h "m" [exChunk] [none] [] 0 (by decide) (by decide)
  rw [show (storeDocEmbeddingsModel "m" none [exChunk] [none] []).2 = [] by decide] at hr
  simp at hr

theorem gatherDocs_all_skipped (env : String → DocSrc) :
    ∀ paths : List String, (∀ p ∈ paths, env p = .missing ∨ env p = .extractFail) →
    gatherDocs env paths = ([], paths)
  | [], _ => rfl
  | p :: rest, h => by
    have ih := gatherDocs_all_skipped env rest (fun q hq => h q (by simp [hq]))
    rcases h p (by simp) with hp | hp
    · rw [gatherDocs, hp, ih]
    · rw [gatherDocs, hp, ih]

/-- Claim C10, confirmed: when every source path of a conversion run is
skipped, convert_documents returns a summary with a null NDJSON path and a
document count of zero, uploads nothing, and performs no database access at
all, leaving the stored document chunk rows unchanged. -/
theorem convert_documents_no_write (env : String → DocSrc)
    (embs : List (Option (List Int))) (failAt : Option Nat) (merchant : String)
    (paths : List String) (db : List CRow)
    (h : ∀ p ∈ paths, env p = .missing ∨ env p = .extractFail) :
    convertDocumentsModel env embs failAt merchant paths db
      = ({ ndjsonPath := none, documentCount := 0, chunksStored := none,
           skippedFiles := paths }, [], db) := by
  rw [convertDocumentsModel, gatherDocs_all_skipped env paths h]
  simp

/-- Witness for the C10 theorem: a one-path run whose only file is missing
writes nothing and leaves the table unchanged. -/
theorem convert_documents_no_write_witness :
    convertDocumentsModel (fun _ => .missing) [] none "m" ["a"] [exCRow]
      = ({ ndjsonPath := none, documentCount := 0, chunksStored := none,
           skippedFiles := ["a"] }, [], [exCRow]) :=
  convert_documents_no_write (fun _ => .missing) [] none "m" ["a"] [exCRow]
    (fun _ _ => Or.inl rfl)

theorem buildVariantsGo_length (pIdx : Nat) : ∀ (grs : List Row) (v : Nat),
    (buildVariantsGo pIdx grs v).length
      = grs.countP (fun r => getCol r ["Variant Price".toList] != [])
  | [], _ => rfl
  | r :: rest, v => by
    rw [buildVariantsGo, List.countP_cons]
    by_cases hp : getCol r ["Variant Price".toList] = []
    · rw [if_pos hp, buildVariantsGo_length pIdx rest v,
        show (getCol r ["Variant Price".toList] != []) = false by rw [hp]; rfl]
      simp
    · rw [if_neg hp, List.length_cons, buildVariantsGo_length pIdx rest (v + 1),
        show (getCol r ["Variant Price".toList] != []) = true by
          rw [bne_iff_ne]; exact hp]
      simp

theorem buildShopify_length (rows : List Row) :
    (buildShopifyProductsFromCsv rows).length = (groupByHandle rows).length := by
  rw [buildShopifyProductsFromCsv, List.length_map, List.enum_length]

theorem buildShopify_getD (rows : List Row) (i : Nat)
    (hi : i < (groupByHandle rows).length) :
    (buildShopifyProductsFromCsv rows).getD i ⟨0, [], []⟩
      = mkGroupedProduct i ((groupByHandle rows).getD i ([], [])) := by
  rw [buildShopifyProductsFromCsv]
  rw [List.getD_eq_getElem _ _ (by rw [List.length_map, List.enum_length]; exact hi)]
  rw [List.getElem_map, List.getElem_enum]
  rw [List.getD_eq_getElem _ _ hi]

/-- Claim C3, amended: in generic one-row-per-product mode every product has
exactly one synthesized default variant; in grouped-export mode a product
has one variant per group row with a non-empty Variant Price, and a handle
group in which no row has a price yields a product with zero variants: no
default variant is synthesized there. -/
theorem variant_synthesis (rows : List Row) :
    (∀ p ∈ buildShopifyProductsGeneric rows, p.variants.length = 1)
    ∧ ∀ i, i < (buildShopifyProductsFromCsv rows).length →
        ((buildShopifyProductsFromCsv rows).getD i ⟨0, [], []⟩).variants.length
          = ((groupByHandle rows).getD i ([], [])).2.countP
              (fun r => getCol r ["Variant Price".toList] != []) := by
  constructor
  · intro p hp
    rw [buildShopifyProductsGeneric] at hp
    obtain ⟨a, _, hfa⟩ := List.mem_filterMap.mp hp
    by_cases ht : getCol a.2 titleKeys = []
    · rw [if_pos ht] at hfa
      cases hfa
    · rw [if_neg ht] at hfa
      rw [Option.some.injEq] at hfa
      rw [← hfa]
      rfl
  · intro i hi
    rw [buildShopify_length] at hi
    rw [buildShopify_getD rows i hi]
    exact buildVariantsGo_length i _ 0

/-- Witness for the amended C3 theorem at a one-row handle group without a
price: the generic mode builds one default variant from the same row, while
the grouped mode builds zero variants. -/
theorem variant_synthesis_witness :
    ((⟨BASE_PRODUCT_ID, "T".toList,
        [⟨BASE_VARIANT_ID, "0".toList⟩]⟩ : SProduct).variants.length = 1)
    ∧ ((buildShopifyProductsFromCsv exRows).getD 0 ⟨0, [], []⟩).variants.length
        = ((groupByHandle exRows).getD 0 ([], [])).2.countP
            (fun r => getCol r ["Variant Price".toList] != []) :=
  ⟨(variant_synthesis exRows).1 ⟨BASE_PRODUCT_ID, "T".toList,
      [⟨BASE_VARIANT_ID, "0".toList⟩]⟩ (by decide),
   (variant_synthesis exRows).2 0 (by decide)⟩

/-- Counterexample to claim C3 as stated: a grouped-export handle group in
which no row has a non-empty Variant Price produces a product whose variant
list is empty; no default variant is synthesized. -/
theorem grouped_zero_variants_counterexample : ¬ groupedProductsHaveVariants := by
  intro h
  have hmem : (⟨BASE_PRODUCT_ID + 0, "T".toList, []⟩ : SProduct)
      ∈ buildShopifyProductsFromCsv exRows := by decide
  exact absurd (h exRows _ hmem) (by decide)

theorem buildVariantsGo_vid (pIdx : Nat) : ∀ (grs : List Row) (v j : Nat),
    j < (buildVariantsGo pIdx grs v).length →
    ((buildVariantsGo pIdx grs v).getD j ⟨0, []⟩).vid
      = BASE_VARIANT_ID + pIdx * 100 + (v + j)
  | [], v, j, hj => by
    rw [buildVariantsGo] at hj
    simp at hj
  | r :: rest, v, j, hj => by
    rw [buildVariantsGo] at hj ⊢
    by_cases hp : getCol r ["Variant Price".toList] = []
    · rw [if_pos hp] at hj ⊢
      exact buildVariantsGo_vid pIdx rest v j hj
    · rw [if_neg hp] at hj ⊢
      cases j with
      | zero =>
        rw [List.getD_cons_zero]
        rfl
      | succ jj =>
        rw [List.getD_cons_succ]
        rw [List.length_cons] at hj
        rw [buildVariantsGo_vid pIdx rest (v + 1) jj (by omega)]
        omega

theorem buildGeneric_eq (rows : List Row) :
    buildShopifyProductsGeneric rows
      = (rows.enum.filter (fun p => getCol p.2 titleKeys != [])).map
          (fun p => mkGenericProduct p.1 p.2) := by
  rw [buildShopifyProductsGeneric]
  generalize rows.enum = l
  induction l with
  | nil => rfl
  | cons a l ih =>
    rw [List.filterMap_cons, List.filter_cons]
    by_cases ha : getCol a.2 titleKeys = []
    · simp [ha, ih]
    · simp [ha, ih]

/-- Claim C7, confirmed: normalizing the same rows twice yields identical
results, since the embedded normalizer is a pure function; in grouped mode
the i-th product by group order has product id BASE_PRODUCT_ID + i and its
j-th variant has id BASE_VARIANT_ID + i * 100 + j; product ids are pairwise
distinct within a run of either mode. -/
theorem synthetic_id_assignment (rows : List Row) :
    buildShopifyProductsFromCsv rows = buildShopifyProductsFromCsv rows
    ∧ (∀ i, i < (buildShopifyProductsFromCsv rows).length →
        ((buildShopifyProductsFromCsv rows).getD i ⟨0, [], []⟩).pid = BASE_PRODUCT_ID + i)
    ∧ (∀ i j, i < (buildShopifyProductsFromCsv rows).length →
        j < ((buildShopifyProductsFromCsv rows).getD i ⟨0, [], []⟩).variants.length →
        (((buildShopifyProductsFromCsv rows).getD i ⟨0, [], []⟩).variants.getD j ⟨0, []⟩).vid
          = BASE_VARIANT_ID + i * 100 + j)
    ∧ ((buildShopifyProductsFromCsv rows).map (fun p => p.pid)).Nodup
    ∧ ((buildShopifyProductsGeneric rows).map (fun p => p.pid)).Nodup := by
  refine ⟨rfl, ?_, ?_, ?_, ?_⟩
  · intro i hi
    rw [buildShopify_length] at hi
    rw [buildShopify_getD rows i hi]
    rfl
  · intro i j hi hj
    rw [buildShopify_length] at hi
    rw [buildShopify_getD rows i hi] at hj ⊢
    rw [show (mkGroupedProduct i ((groupByHandle rows).getD i ([], []))).variants
      = buildVariantsGo i ((groupByHandle rows).getD i ([], [])).2 0 from rfl] at hj ⊢
    rw [buildVariantsGo_vid i ((groupByHandle rows).getD i ([], [])).2 0 j hj]
    omega
  · have hmap : (buildShopifyProductsFromCsv rows).map (fun p => p.pid)
        = (List.range (groupByHandle rows).length).map (fun i => BASE_PRODUCT_ID + i) := by
      rw [buildShopifyProductsFromCsv, List.map_map]
      rw [show (List.range (groupByHandle rows).length)
          = (groupByHandle rows).enum.map Prod.fst from (List.enum_map_fst _).symm]
      rw [List.map_map]
      apply List.map_congr_left
      intro a _
      rfl
    rw [hmap]
    exact (List.nodup_range _).map (fun a b hab => by omega)
  · rw [buildGeneric_eq, List.map_map]
    have hmap : ((rows.enum.filter (fun p => getCol p.2 titleKeys != [])).map
          ((fun p => p.pid) ∘ (fun p => mkGenericProduct p.1 p.2)))
        = ((rows.enum.filter (fun p => getCol p.2 titleKeys != [])).map Prod.fst).map
            (fun i => BASE_PRODUCT_ID + i) := by
      rw [List.map_map]
      apply List.map_congr_left
      intro a _
      rfl
    rw [hmap]
    apply List.Nodup.map (fun a b hab => by omega)
    have hsub : List.Sublist
        ((rows.enum.filter (fun p => getCol p.2 titleKeys != [])).map Prod.fst)
        (rows.enum.map Prod.fst) := (List.filter_sublist _).map _
    rw [List.enum_map_fst] at hsub
    exact (List.nodup_range _).sublist hsub

/-- Witness for the C7 theorem at a concrete grouped export with two handle
groups: product ids take the base plus the group index and the second
variant of the first group takes the base plus one. -/
theorem synthetic_id_assignment_witness :
    ((buildShopifyProductsFromCsv
        [[("Handle".toList, "h1".toList), ("Variant Price".toList, "10".toList)],
         [("Handle".toList, "h1".toList), ("Variant Price".toList, "12".toList)],
         [("Handle".toList, "h2".toList), ("Variant Price".toList, "9".toList)]]).getD 1
        ⟨0, [], []⟩).pid = BASE_PRODUCT_ID + 1
    ∧ (((buildShopifyProductsFromCsv
        [[("Handle".toList, "h1".toList), ("Variant Price".toList, "10".toList)],
         [("Handle".toList, "h1".toList), ("Variant Price".toList, "12".toList)],
         [("Handle".toList, "h2".toList), ("Variant Price".toList, "9".toList)]]).getD 0
        ⟨0, [], []⟩).variants.getD 1 ⟨0, []⟩).vid = BASE_VARIANT_ID + 0 * 100 + 1 :=
  ⟨(synthetic_id_assignment _).2.1 1 (by decide),
   (synthetic_id_assignment _).2.2.1 0 1 (by decide) (by decide)⟩

end AgentBuilder
